import Mathlib

/-!
Verification of the version-matching and release-selection core of the
wasm-gg build tool (`wargo`).

The embedding follows `src/wargo/src/build/choose_version.rs` and
`src/wargo/src/build/mod.rs`.  Rust strings are modelled as `List Char`,
`semver::Version` ordering as a `LinearOrder` (the Rust code only uses
`Ord` on versions), panics as the `Except.error` branch of an `Except`
result carrying the panic message, and `Option` results as `Option`.

The Rust function sorts its filtered list with `slice::sort_unstable_by`.
That primitive guarantees only that the result is a permutation of the
input that is sorted with respect to the comparator; it is documented to
possibly reorder equal elements.  The executable model below
(`choose_version_by_key`) stands in a deterministic sort for it, and the
relation `choose_version_by_key_rel` captures exactly the guaranteed
contract: any permutation of the filtered list sorted by descending
version may be the sorted intermediate.  Properties that must hold for
every behaviour the sort contract permits are proved against the
relation.
-/

namespace WargoBuild

/-- Panic message of `assert!(!items.is_empty())` at the top of
`choose_version_by_key`. -/
def assertEmptyMsg : String := "assertion failed: !items.is_empty()"

/-- Panic message of `.expect("invalid versions are filtered out")` in
`choose_version_by_key`. -/
def expectMsg : String := "invalid versions are filtered out"

/-- Panic message of the `.unwrap()` in the derive closure of
`download_matching_release`. -/
def unwrapMsg : String := "called Option::unwrap() on a None value"

section ChooseDefs

variable {V : Type} [LinearOrder V] {T : Type}

/-- The `.map(|i| { let version = key_fn(&i); (i, version) })` step of the
pipeline, for a derivation closure that may itself panic (modelled as
`Except.error` with the panic message).  Rust's `collect` drives every
item through the chain, so the closure is applied to each item in input
order and the first panic aborts the whole call. -/
def mapStepE (key_fn : T → Except String (Option V)) :
    List T → Except String (List (T × Option V))
  | [] => Except.ok []
  | i :: rest =>
      match key_fn i with
      | Except.error e => Except.error e
      | Except.ok version =>
          match mapStepE key_fn rest with
          | Except.error e => Except.error e
          | Except.ok pairs => Except.ok ((i, version) :: pairs)

/-- The `.filter(move |(_i, version)| ...)` step: retain pairs whose
version is present and `<=` the main version. -/
def filterStep (main_version : V) (pairs : List (T × Option V)) :
    List (T × Option V) :=
  pairs.filter fun p =>
    match p.2 with
    | some version => decide (version ≤ main_version)
    | none => false

/-- The `.map(|(i, version)| (i, version.expect("invalid versions are
filtered out")))` step: extracting the version panics if it is absent. -/
def expectStep : List (T × Option V) → Except String (List (T × V))
  | [] => Except.ok []
  | p :: rest =>
      match p.2 with
      | some version =>
          match expectStep rest with
          | Except.error e => Except.error e
          | Except.ok pairs => Except.ok ((p.1, version) :: pairs)
      | none => Except.error expectMsg

/-- `filtered_items.sort_unstable_by(|(_i, version), (_other_i,
other_version)| other_version.cmp(version))`: sort from greatest version
to least.  The executable model uses a deterministic sort realising the
comparator; the contract of `sort_unstable_by` (any sorted permutation)
is captured by `choose_version_by_key_rel` below. -/
def sortStep (pairs : List (T × V)) : List (T × V) :=
  pairs.insertionSort fun a b => b.2 ≤ a.2

/-- `choose_version_by_key` from `src/wargo/src/build/choose_version.rs`,
generalised to a derivation closure that may panic (the in-repo caller
passes one that can).  `assert!(!items.is_empty())` is the `Except.error
assertEmptyMsg` branch; `Some(filtered_items.remove(0).0)` together with
the early `return None` on an empty filtered list is `.head?.map
Prod.fst`. -/
def choose_version_by_keyE (main_version : V) (items : List T)
    (key_fn : T → Except String (Option V)) : Except String (Option T) :=
  if items.isEmpty then Except.error assertEmptyMsg
  else
    match mapStepE key_fn items with
    | Except.error e => Except.error e
    | Except.ok pairs =>
        match expectStep (filterStep main_version pairs) with
        | Except.error e => Except.error e
        | Except.ok fs => Except.ok ((sortStep fs).head?.map Prod.fst)

/-- `choose_version_by_key` applied to a non-panicking derivation closure
`key_fn : T → Option V`, matching the Rust signature `impl Fn(&T) ->
Option<Version>`. -/
def choose_version_by_key (main_version : V) (items : List T)
    (key_fn : T → Option V) : Except String (Option T) :=
  choose_version_by_keyE main_version items fun i => Except.ok (key_fn i)

/-- The filtered list that the pipeline produces for a non-panicking
closure: items whose derivation succeeds with a version `<=` the main
version, paired with that version, in input order. -/
def filtered_items (main_version : V) (items : List T)
    (key_fn : T → Option V) : List (T × V) :=
  items.filterMap fun i =>
    match key_fn i with
    | some version =>
        if version ≤ main_version then some (i, version) else none
    | none => none

/-- The contract of `choose_version_by_key` for a non-panicking closure:
on an empty input the assertion fires; otherwise the result is the head
(first component) of some permutation of the filtered list that is
sorted by descending version — exactly what `sort_unstable_by`
guarantees about the intermediate list. -/
def choose_version_by_key_rel (main_version : V) (items : List T)
    (key_fn : T → Option V) (res : Except String (Option T)) : Prop :=
  match items with
  | [] => res = Except.error assertEmptyMsg
  | _ :: _ =>
      ∃ l : List (T × V),
        l.Perm (filtered_items main_version items key_fn) ∧
        l.Pairwise (fun a b => b.2 ≤ a.2) ∧
        res = Except.ok (l.head?.map Prod.fst)

/-- A version of the map step that also records, in order, every argument
the derivation closure is invoked on (the closure is called exactly once
per item, inside this step and nowhere else in the pipeline). -/
def mapStepTraced (key_fn : T → Option V) :
    List T → List (T × Option V) × List T
  | [] => ([], [])
  | i :: rest =>
      let version := key_fn i
      let (pairs, log) := mapStepTraced key_fn rest
      ((i, version) :: pairs, i :: log)

end ChooseDefs

/-- `semver::Version` restricted to the plain numeric
`MAJOR.MINOR.PATCH` form.  The Rust code only uses the `Ord` instance of
versions; pre-release/build metadata never occurs in the repository's
tags or tests and no claim below depends on it. -/
structure SemVersion where
  major : Nat
  minor : Nat
  patch : Nat
deriving DecidableEq, Repr

/-- Lexicographic encoding realising semver precedence (major, then
minor, then patch) for plain versions. -/
def SemVersion.enc (v : SemVersion) : Lex (Nat × Lex (Nat × Nat)) :=
  toLex (v.major, toLex (v.minor, v.patch))

instance : LinearOrder SemVersion :=
  LinearOrder.lift' SemVersion.enc (by
    rintro ⟨a1, a2, a3⟩ ⟨b1, b2, b3⟩ h
    simp only [SemVersion.enc, toLex_inj, Prod.mk.injEq] at h
    obtain ⟨h1, h2, h3⟩ := h
    simp [h1, h2, h3])

/-- Rust `str::split` with a one-character pattern, on strings modelled
as `List Char`: the (always non-empty) list of segments between
occurrences of `sep`. -/
def rustSplit (sep : Char) : List Char → List (List Char)
  | [] => [[]]
  | c :: rest =>
      match rustSplit sep rest with
      | [] => [[]]
      | seg :: segs =>
          if c = sep then [] :: seg :: segs
          else (c :: seg) :: segs

/-- Numeric component parsing as in the semver grammar: a non-empty
digit string with no leading zero (except "0" itself). -/
def parseNumericId (s : List Char) : Option Nat :=
  match s with
  | [] => none
  | _ =>
      if s.all Char.isDigit then
        if 1 < s.length ∧ s.head? = some '0' then none
        else some (s.foldl (fun n c => 10 * n + (c.toNat - 48)) 0)
      else none

/-- Models `semver::Version::parse` on plain numeric
`MAJOR.MINOR.PATCH` strings; anything else (including pre-release or
build suffixes, which the repository never produces) is rejected.  No
claim below depends on the rejected forms. -/
def semverParse (s : List Char) : Option SemVersion :=
  match rustSplit '.' s with
  | [ma, mi, pa] =>
      match parseNumericId ma, parseNumericId mi, parseNumericId pa with
      | some major, some minor, some patch => some ⟨major, minor, patch⟩
      | _, _, _ => none
  | _ => none

/-- A GitHub release as used by `download_matching_release`: only the
tag and the tarball location are consumed. -/
structure Release where
  tag_name : List Char
  tarball_url : List Char
deriving DecidableEq, Repr

/-- The derive closure passed to `choose_version_by_key` in
`download_matching_release`, generalised over the version parser:
`r.tag_name.split("v").nth(1).unwrap()` followed by
`Version::parse(version_str).ok()`.  The `.unwrap()` panics (the
`Except.error` branch) when the split has no second segment, i.e. when
the tag contains no `v` at all. -/
def deriveTagKey {V : Type} (parse : List Char → Option V) (tag : List Char) :
    Except String (Option V) :=
  match (rustSplit 'v' tag)[1]? with
  | none => Except.error unwrapMsg
  | some version_str => Except.ok (parse version_str)

/-- The concrete closure of `download_matching_release`. -/
def derive_release_version (r : Release) : Except String (Option SemVersion) :=
  deriveTagKey semverParse r.tag_name

/-- Terminal paths of `download_matching_release` up to the point where
the release tarball is fetched: an early error return, a propagating
panic, or reaching the download step with the chosen release. -/
inductive BuildOutcome (T : Type) where
  | fail (msg : String)
  | panicked (msg : String)
  | download (chosen : T)
deriving DecidableEq, Repr

/-- `download_matching_release` from `src/wargo/src/build/mod.rs`,
modelled on its decision skeleton: the project's wasm-rgame version and
the fetched release list are parameters (their I/O acquisition is
abstracted), and the result records which terminal path is taken before
any download side effect. -/
def download_matching_release (wasm_rgame_version : SemVersion)
    (releases : List Release) : BuildOutcome Release :=
  if releases.isEmpty then
    BuildOutcome.fail "Found no releases for wasm-rgame-js!"
  else
    match choose_version_by_keyE wasm_rgame_version releases
        derive_release_version with
    | Except.error msg => BuildOutcome.panicked msg
    | Except.ok none =>
        BuildOutcome.fail "Found no valid releases for wasm-rgame version!"
    | Except.ok (some chosen_release) => BuildOutcome.download chosen_release

/-! ### Pipeline characterisation lemmas -/

section ChooseLemmas

variable {V : Type} [LinearOrder V] {T : Type}

omit [LinearOrder V] in
theorem mapStepE_pure (key_fn : T → Option V) (items : List T) :
    mapStepE (V := V) (fun i => Except.ok (key_fn i)) items =
      Except.ok (items.map fun i => (i, key_fn i)) := by
  induction items with
  | nil => rfl
  | cons i rest ih => simp [mapStepE, ih]

theorem expectStep_filterStep (main_version : V) (key_fn : T → Option V)
    (items : List T) :
    expectStep (filterStep main_version (items.map fun i => (i, key_fn i))) =
      Except.ok (filtered_items main_version items key_fn) := by
  induction items with
  | nil => rfl
  | cons i rest ih =>
      simp only [List.map_cons, filterStep, List.filter_cons] at ih ⊢
      rcases h : key_fn i with _ | version
      · simpa [filtered_items, h] using ih
      · by_cases hle : version ≤ main_version
        · simp [hle, expectStep, ih, filtered_items, h]
        · simp [hle, expectStep, ih, filtered_items, h]

theorem choose_version_by_key_eq (main_version : V) (items : List T)
    (key_fn : T → Option V) (hne : items ≠ []) :
    choose_version_by_key main_version items key_fn =
      Except.ok ((sortStep (filtered_items main_version items key_fn)).head?.map
        Prod.fst) := by
  unfold choose_version_by_key choose_version_by_keyE
  rw [if_neg (by simpa [List.isEmpty_iff] using hne)]
  simp only [mapStepE_pure, expectStep_filterStep]

theorem mem_filtered_items (main_version : V) (items : List T)
    (key_fn : T → Option V) (p : T × V) :
    p ∈ filtered_items main_version items key_fn ↔
      p.1 ∈ items ∧ key_fn p.1 = some p.2 ∧ p.2 ≤ main_version := by
  simp only [filtered_items, List.mem_filterMap]
  constructor
  · rintro ⟨i, hi, hp⟩
    rcases h : key_fn i with _ | version <;> rw [h] at hp
    · exact absurd hp (by simp)
    · by_cases hle : version ≤ main_version
      · simp only [hle, if_true] at hp
        obtain rfl : (i, version) = p := by simpa using hp
        exact ⟨hi, h, hle⟩
      · simp only [hle, if_false] at hp
        exact absurd hp (by simp)
  · rintro ⟨hp, hk, hle⟩
    exact ⟨p.1, hp, by simp [hk, hle]⟩

theorem filtered_items_eq_nil_iff (main_version : V) (items : List T)
    (key_fn : T → Option V) :
    filtered_items main_version items key_fn = [] ↔
      ∀ i ∈ items, ∀ version, key_fn i = some version →
        ¬ version ≤ main_version := by
  rw [List.eq_nil_iff_forall_not_mem]
  constructor
  · intro h i hi version hk hle
    exact h (i, version) ((mem_filtered_items _ _ _ _).mpr ⟨hi, hk, hle⟩)
  · rintro h ⟨i, version⟩ hmem
    obtain ⟨hi, hk, hle⟩ := (mem_filtered_items _ _ _ _).mp hmem
    exact h i hi version hk hle

/-- The executable model is one of the behaviours the `sort_unstable_by`
contract permits: its sorted intermediate is a descending-sorted
permutation of the filtered list. -/
theorem choose_version_by_key_rel_self (main_version : V) (items : List T)
    (key_fn : T → Option V) :
    choose_version_by_key_rel main_version items key_fn
      (choose_version_by_key main_version items key_fn) := by
  match items with
  | [] => rfl
  | i :: rest =>
      refine ⟨sortStep (filtered_items main_version (i :: rest) key_fn),
        ?_, ?_, ?_⟩
      · exact List.perm_insertionSort _ _
      · haveI : IsTotal (T × V) (fun a b => b.2 ≤ a.2) :=
          ⟨fun a b => le_total b.2 a.2⟩
        haveI : IsTrans (T × V) (fun a b => b.2 ≤ a.2) :=
          ⟨fun _ _ _ hab hbc => le_trans hbc hab⟩
        exact List.sorted_insertionSort _ _
      · exact choose_version_by_key_eq main_version (i :: rest) key_fn
          (by simp)

/-- For a non-empty input the contract relation is the sorted-permutation
clause. -/
theorem choose_version_by_key_rel_of_ne_nil (main_version : V)
    (items : List T) (key_fn : T → Option V)
    (res : Except String (Option T)) (hne : items ≠ []) :
    choose_version_by_key_rel main_version items key_fn res ↔
      ∃ l : List (T × V),
        l.Perm (filtered_items main_version items key_fn) ∧
        l.Pairwise (fun a b => b.2 ≤ a.2) ∧
        res = Except.ok (l.head?.map Prod.fst) := by
  match items with
  | [] => exact absurd rfl hne
  | _ :: _ => exact Iff.rfl

omit [LinearOrder V] in
theorem mapStepTraced_log (key_fn : T → Option V) (items : List T) :
    (mapStepTraced key_fn items).2 = items := by
  induction items with
  | nil => rfl
  | cons i rest ih => simp [mapStepTraced, ih]

omit [LinearOrder V] in
theorem mapStepTraced_pairs (key_fn : T → Option V) (items : List T) :
    (mapStepTraced key_fn items).1 = items.map fun i => (i, key_fn i) := by
  induction items with
  | nil => rfl
  | cons i rest ih => simp [mapStepTraced, ih]

end ChooseLemmas

theorem rustSplit_ne_nil (sep : Char) (l : List Char) :
    rustSplit sep l ≠ [] := by
  cases l with
  | nil => simp [rustSplit]
  | cons c rest =>
      simp only [rustSplit]
      rcases h : rustSplit sep rest with _ | ⟨seg, segs⟩
      · simp
      · by_cases hc : c = sep <;> simp [hc]

theorem length_rustSplit (sep : Char) (l : List Char) :
    (rustSplit sep l).length = l.count sep + 1 := by
  induction l with
  | nil => rfl
  | cons c rest ih =>
      simp only [rustSplit]
      rcases h : rustSplit sep rest with _ | ⟨seg, segs⟩
      · exact absurd h (rustSplit_ne_nil sep rest)
      · rw [h] at ih
        show (if c = sep then [] :: seg :: segs
          else (c :: seg) :: segs).length = (c :: rest).count sep + 1
        by_cases hc : c = sep
        · subst hc
          simp only [if_pos rfl, List.count_cons_self]
          simpa using ih
        · rw [if_neg hc]
          simp only [List.length_cons] at ih ⊢
          rw [List.count_cons_of_ne (Ne.symm hc)]
          exact ih

/-- The second segment of a Rust split exists iff the separator occurs
in the string. -/
theorem rustSplit_getElem?_one (sep : Char) (l : List Char) :
    (rustSplit sep l)[1]? = none ↔ sep ∉ l := by
  rw [List.getElem?_eq_none_iff, length_rustSplit]
  constructor
  · intro h hmem
    have : 1 ≤ l.count sep := List.one_le_count_iff.mpr hmem
    omega
  · intro h
    rw [List.count_eq_zero_of_not_mem h]

/-- The derive closure only ever panics with the `unwrap` message. -/
theorem derive_release_version_error (r : Release) (e : String)
    (h : derive_release_version r = Except.error e) : e = unwrapMsg := by
  unfold derive_release_version deriveTagKey at h
  rcases hs : (rustSplit 'v' r.tag_name)[1]? with _ | seg <;> rw [hs] at h
  · exact (Except.error.injEq _ _).mp h.symm
  · exact absurd h (by simp)

/-- The map step only fails with an error produced by the closure on one
of the items. -/
theorem mapStepE_error {V T : Type} (key_fn : T → Except String (Option V))
    (items : List T) (e : String)
    (h : mapStepE key_fn items = Except.error e) :
    ∃ i ∈ items, key_fn i = Except.error e := by
  induction items with
  | nil => exact absurd h (by simp [mapStepE])
  | cons i rest ih =>
      unfold mapStepE at h
      rcases hk : key_fn i with e' | version <;> rw [hk] at h
      · obtain rfl : e' = e := (Except.error.injEq _ _).mp h
        exact ⟨i, by simp, hk⟩
      · rcases hm : mapStepE key_fn rest with e' | pairs <;> rw [hm] at h
        · obtain rfl : e' = e := (Except.error.injEq _ _).mp h
          obtain ⟨j, hj, hje⟩ := ih hm
          exact ⟨j, by simp [hj], hje⟩
        · exact absurd h (by simp)

/-- The expect step only ever fails with the `expect` message. -/
theorem expectStep_error {V T : Type} (pairs : List (T × Option V))
    (e : String) (h : expectStep pairs = Except.error e) : e = expectMsg := by
  induction pairs with
  | nil => exact absurd h (by simp [expectStep])
  | cons p rest ih =>
      unfold expectStep at h
      rcases hp : p.2 with _ | version <;> rw [hp] at h
      · exact ((Except.error.injEq _ _).mp h).symm
      · rcases hm : expectStep rest with e' | ps <;> rw [hm] at h
        · obtain rfl : e' = e := (Except.error.injEq _ _).mp h
          exact ih hm
        · exact absurd h (by simp)

/-- On a non-empty input, a panic escaping `choose_version_by_key` is
either a panic of the derivation closure or the (never reached, see C9)
`expect` panic — in particular never the non-emptiness assertion. -/
theorem choose_version_by_keyE_error_cases {V T : Type} [LinearOrder V]
    (main_version : V) (items : List T)
    (key_fn : T → Except String (Option V)) (hne : items ≠ [])
    (hkey : ∀ i e, key_fn i = Except.error e → e = unwrapMsg) (e : String)
    (h : choose_version_by_keyE main_version items key_fn =
      Except.error e) : e = unwrapMsg ∨ e = expectMsg := by
  unfold choose_version_by_keyE at h
  rw [if_neg (by simpa [List.isEmpty_iff] using hne)] at h
  rcases hm : mapStepE key_fn items with e' | pairs <;>
    rw [hm] at h <;> simp only [] at h
  · obtain ⟨i, -, hie⟩ := mapStepE_error _ _ _ hm
    obtain rfl : e' = e := by simpa using h
    exact Or.inl (hkey i _ hie)
  · rcases hx : expectStep (filterStep main_version pairs)
        with e' | fs <;> rw [hx] at h <;> simp only [] at h
    · obtain rfl : e' = e := by simpa using h
      exact Or.inr (expectStep_error _ _ hx)
    · exact absurd h (by simp)

/-! ### Claims -/

/-- Claim C1: for every reference version, non-empty candidate list and
derivation function, under every behaviour the sort contract permits, if
`choose_version_by_key` returns `Some(item)` then the derived version of
that item is present, is `≤` the reference version, and no candidate in
the input whose derivation succeeds and whose derived version is `≤` the
reference has a derived version strictly greater than the returned
item's. -/
theorem choose_version_by_key_bound_and_maximal {V : Type} [LinearOrder V]
    {T : Type} (main_version : V) (items : List T) (key_fn : T → Option V)
    (res : Except String (Option T)) (item : T) (hne : items ≠ [])
    (hrel : choose_version_by_key_rel main_version items key_fn res)
    (hsome : res = Except.ok (some item)) :
    ∃ version, key_fn item = some version ∧ version ≤ main_version ∧
      ∀ other ∈ items, ∀ w, key_fn other = some w → w ≤ main_version →
        ¬ version < w := by
  rw [choose_version_by_key_rel_of_ne_nil _ _ _ _ hne] at hrel
  obtain ⟨l, hperm, hsorted, hres⟩ := hrel
  rw [hres] at hsome
  match l, hperm, hsorted, hsome with
  | [], _, _, hsome => exact absurd hsome (by simp)
  | (t, version) :: lrest, hperm, hsorted, hsome =>
      have ht : t = item := by simpa using hsome
      rw [← ht]
      have hmem : (t, version) ∈ filtered_items main_version items key_fn :=
        hperm.mem_iff.mp (by simp)
      obtain ⟨-, hk, hle⟩ := (mem_filtered_items _ _ _ _).mp hmem
      refine ⟨version, hk, hle, ?_⟩
      intro other hother w hw hwle hlt
      have hmem' : (other, w) ∈ (t, version) :: lrest :=
        hperm.mem_iff.mpr
          ((mem_filtered_items _ _ _ _).mpr ⟨hother, hw, hwle⟩)
      rcases List.mem_cons.mp hmem' with heq | hrest
      · obtain rfl : w = version := congrArg Prod.snd heq
        exact lt_irrefl _ hlt
      · have : w ≤ version :=
          (List.pairwise_cons.mp hsorted).1 (other, w) hrest
        exact absurd hlt (not_lt.mpr this)

/-- Witness for C1 at a concrete input: reference `3`, candidates
`[2, 5, 3]`, derivation `some`; the sorted permutation `[(3,3), (2,2)]`
of the filtered list yields the item `3`. -/
theorem choose_version_by_key_bound_and_maximal_witness :
    ([2, 5, 3] ≠ ([] : List Nat)) ∧
    choose_version_by_key_rel 3 [2, 5, 3] some
      (Except.ok (some 3)) ∧
    (∃ version, some 3 = some version ∧ version ≤ 3 ∧
      ∀ other ∈ [2, 5, 3], ∀ w : Nat, some other = some w → w ≤ 3 →
        ¬ version < w) := by
  have hrel : choose_version_by_key_rel 3 [2, 5, 3] some
      (Except.ok (some 3)) := by
    refine ⟨[(3, 3), (2, 2)], by decide, by decide, rfl⟩
  exact ⟨by decide, hrel,
    choose_version_by_key_bound_and_maximal 3 [2, 5, 3] some
      (Except.ok (some 3)) 3 (by decide) hrel rfl⟩

/-- Claim C3: for every non-empty candidate list, under every behaviour
the sort contract permits, `choose_version_by_key` returns `None` iff no
candidate both derives successfully and has derived version `≤` the
reference; and when an eligible candidate exists it returns `Some` of
exactly one candidate. -/
theorem choose_version_by_key_none_iff_no_eligible {V : Type}
    [LinearOrder V] {T : Type} (main_version : V) (items : List T)
    (key_fn : T → Option V) (res : Except String (Option T))
    (hne : items ≠ [])
    (hrel : choose_version_by_key_rel main_version items key_fn res) :
    (res = Except.ok none ↔
      ¬ ∃ i ∈ items, ∃ version, key_fn i = some version ∧
        version ≤ main_version) ∧
    ((∃ i ∈ items, ∃ version, key_fn i = some version ∧
        version ≤ main_version) → ∃ item, res = Except.ok (some item)) := by
  rw [choose_version_by_key_rel_of_ne_nil _ _ _ _ hne] at hrel
  obtain ⟨l, hperm, -, hres⟩ := hrel
  have hnil : l = [] ↔
      filtered_items main_version items key_fn = [] :=
    ⟨fun h => (h ▸ hperm).symm.eq_nil, fun h => (h ▸ hperm).eq_nil⟩
  have hchar : res = Except.ok none ↔
      ¬ ∃ i ∈ items, ∃ version, key_fn i = some version ∧
        version ≤ main_version := by
    rw [hres]
    constructor
    · intro h hex
      have hl : l = [] := by
        match l with
        | [] => rfl
        | p :: _ => simp at h
      obtain ⟨i, hi, version, hk, hle⟩ := hex
      have := (filtered_items_eq_nil_iff main_version items key_fn).mp
        (hnil.mp hl) i hi version hk
      exact this hle
    · intro h
      have hfil : filtered_items main_version items key_fn = [] := by
        rw [filtered_items_eq_nil_iff]
        intro i hi version hk hle
        exact h ⟨i, hi, version, hk, hle⟩
      rw [hnil.mpr hfil]
      rfl
  refine ⟨hchar, fun hex => ?_⟩
  match l, hres with
  | [], hres =>
      exact absurd (hchar.mp (by rw [hres]; rfl)) (not_not.mpr hex)
  | (t, version) :: lrest, hres => exact ⟨t, by rw [hres]; rfl⟩

/-- Witness for C3 at a concrete input: reference `1`, candidates
`[5, 7]` with derivation `some` — no eligible candidate, and the (only)
permitted result `Except.ok none` is characterised accordingly. -/
theorem choose_version_by_key_none_iff_no_eligible_witness :
    ([5, 7] ≠ ([] : List Nat)) ∧
    choose_version_by_key_rel 1 [5, 7] some (Except.ok none) ∧
    ((Except.ok none = (Except.ok none : Except String (Option Nat))) ↔
      ¬ ∃ i ∈ [5, 7], ∃ version : Nat, some i = some version ∧
        version ≤ 1) := by
  have hrel : choose_version_by_key_rel 1 [5, 7] some
      (Except.ok (none : Option Nat)) := ⟨[], by decide, by decide, rfl⟩
  exact ⟨by decide, hrel,
    (choose_version_by_key_none_iff_no_eligible 1 [5, 7] some
      (Except.ok none) (by decide) hrel).1⟩

/-- Counterexample to claim C2 as stated: the code sorts with
`slice::sort_unstable_by`, which guarantees only a comparator-sorted
permutation and may reorder equal elements.  For candidates `[10, 20]`
that both derive version `1` (tied at the maximum, reference `1`), the
earliest tied candidate is `10`, yet the sorted intermediate
`[(20,1), (10,1)]` also satisfies the sort's contract, under which the
call returns `20` — so the code does not guarantee that the earliest
tied candidate is returned. -/
theorem tie_break_earliest_not_guaranteed :
    choose_version_by_key_rel 1 [10, 20] (fun _ => some 1)
      (Except.ok (some (20 : Nat))) ∧
    (20 : Nat) ≠ 10 :=
  ⟨⟨[(20, 1), (10, 1)], by decide, by decide, rfl⟩, by decide⟩

/-- Claim C2 (amended): if two or more eligible candidates tie for the
maximum eligible derived version, `choose_version_by_key` returns one of
the candidates attaining that maximum; which of the tied candidates is
returned is not determined by the code, because `sort_unstable_by`
guarantees only a sorted permutation and may reorder equal elements. -/
theorem choose_version_by_key_tie_returns_maximal {V : Type}
    [LinearOrder V] {T : Type} (main_version : V) (items : List T)
    (key_fn : T → Option V) (res : Except String (Option T)) (a b : T)
    (version : V) (hne : items ≠ [])
    (hrel : choose_version_by_key_rel main_version items key_fn res)
    (ha : a ∈ items) (_hb : b ∈ items) (hka : key_fn a = some version)
    (hkb : key_fn b = some version) (hle : version ≤ main_version)
    (hmax : ∀ u ∈ items, ∀ w, key_fn u = some w → w ≤ main_version →
      w ≤ version) :
    ∃ item, res = Except.ok (some item) ∧ item ∈ items ∧
      key_fn item = some version := by
  rw [choose_version_by_key_rel_of_ne_nil _ _ _ _ hne] at hrel
  obtain ⟨l, hperm, hsorted, hres⟩ := hrel
  have hamem : (a, version) ∈ l :=
    hperm.mem_iff.mpr ((mem_filtered_items _ _ _ _).mpr ⟨ha, hka, hle⟩)
  match l, hperm, hsorted, hres, hamem with
  | (t, w) :: lrest, hperm, hsorted, hres, hamem =>
      have hmem : (t, w) ∈ filtered_items main_version items key_fn :=
        hperm.mem_iff.mp (by simp)
      obtain ⟨ht, hk, hwle⟩ := (mem_filtered_items _ _ _ _).mp hmem
      have hw_le : w ≤ version := hmax t ht w hk hwle
      have hle_w : version ≤ w := by
        rcases List.mem_cons.mp hamem with heq | hrest
        · exact le_of_eq (congrArg Prod.snd heq)
        · exact (List.pairwise_cons.mp hsorted).1 (a, version) hrest
      obtain rfl : w = version := le_antisymm hw_le hle_w
      exact ⟨t, by rw [hres]; rfl, ht, hk⟩

/-- Witness for the amended C2 at a concrete input: candidates
`[10, 20]` both deriving version `1` with reference `1`; the permitted
result `10` is one of the tied maximal candidates. -/
theorem choose_version_by_key_tie_returns_maximal_witness :
    choose_version_by_key_rel 1 [10, 20] (fun _ => some 1)
      (Except.ok (some (10 : Nat))) ∧
    (∃ item, (Except.ok (some (10 : Nat)) : Except String (Option Nat)) =
        Except.ok (some item) ∧ item ∈ [10, 20] ∧
      (fun _ : Nat => some (1 : Nat)) item = some 1) := by
  have hrel : choose_version_by_key_rel 1 [10, 20] (fun _ => some 1)
      (Except.ok (some (10 : Nat))) :=
    ⟨[(10, 1), (20, 1)], by decide, by decide, rfl⟩
  exact ⟨hrel,
    choose_version_by_key_tie_returns_maximal 1 [10, 20] (fun _ => some 1)
      (Except.ok (some 10)) 10 20 1 (by decide) hrel (by decide) (by decide)
      rfl rfl (by decide) (fun _ _ _ _ h => h)⟩

/-- Claim C4: for every reference version and derivation function,
calling `choose_version_by_key` with an empty candidate list fails
loudly (the `assert!` panic) and does not return `None`; and on any
non-empty list the assertion panic never occurs, so the empty-input case
is observably distinct from the no-eligible-candidate case. -/
theorem choose_version_by_key_empty_input_asserts {V : Type}
    [LinearOrder V] {T : Type} (main_version : V) (key_fn : T → Option V) :
    choose_version_by_key main_version ([] : List T) key_fn =
      Except.error assertEmptyMsg ∧
    (∀ o : Option T, choose_version_by_key main_version [] key_fn ≠
      Except.ok o) ∧
    ∀ items : List T, items ≠ [] →
      choose_version_by_key main_version items key_fn ≠
        Except.error assertEmptyMsg := by
  refine ⟨rfl, by simp [choose_version_by_key, choose_version_by_keyE],
    fun items hne => ?_⟩
  rw [choose_version_by_key_eq main_version items key_fn hne]
  simp

/-- Witness for C4 at a concrete input: the empty-list call with
reference `0` and derivation `some` panics with the assertion message,
while the non-empty no-eligible call `[5]` does not. -/
theorem choose_version_by_key_empty_input_asserts_witness :
    choose_version_by_key (0 : Nat) ([] : List Nat) some =
      Except.error assertEmptyMsg ∧
    ([5] ≠ ([] : List Nat) ∧
      choose_version_by_key (0 : Nat) [5] some ≠
        Except.error assertEmptyMsg) :=
  ⟨(choose_version_by_key_empty_input_asserts 0 some).1,
    by decide,
    (choose_version_by_key_empty_input_asserts 0 some).2.2 [5] (by decide)⟩

/-- Counterexample to claim C5 as stated: for the singleton input `[0]`
whose sole candidate fails derivation, `choose_version_by_key` returns
`None`, but on the input with that candidate removed (the empty list) it
panics on the non-emptiness assertion — the two results differ, so the
result is not always "the same as if that candidate were removed". -/
theorem choose_removal_differs_on_singleton :
    choose_version_by_key (0 : Nat) [(0 : Nat)] (fun _ => none) =
      Except.ok none ∧
    choose_version_by_key (0 : Nat) ([] : List Nat) (fun _ => none) =
      Except.error assertEmptyMsg ∧
    (Except.ok (none : Option Nat) : Except String (Option Nat)) ≠
      Except.error assertEmptyMsg :=
  ⟨rfl, rfl, by simp⟩

/-- Claim C5 (amended): for every candidate list containing a candidate
whose derivation yields absent, that candidate is never the returned
item and never causes a failure, the derivation closure is applied
exactly once per candidate, and — provided at least one other candidate
remains — the permitted results are exactly those for the input with
that candidate removed.  (The proviso is forced: removing the sole
element of a singleton list empties it and trips the non-emptiness
assertion, see the counterexample.) -/
theorem choose_version_by_key_drops_underivable {V : Type} [LinearOrder V]
    {T : Type} (main_version : V) (c : T) (key_fn : T → Option V)
    (l1 l2 : List T) (res : Except String (Option T))
    (hnone : key_fn c = none) (hne : l1 ++ l2 ≠ []) :
    (choose_version_by_key_rel main_version (l1 ++ c :: l2) key_fn res ↔
      choose_version_by_key_rel main_version (l1 ++ l2) key_fn res) ∧
    (choose_version_by_key_rel main_version (l1 ++ c :: l2) key_fn res →
      res ≠ Except.ok (some c)) ∧
    (choose_version_by_key_rel main_version (l1 ++ c :: l2) key_fn res →
      ∃ o, res = Except.ok o) ∧
    (mapStepTraced key_fn (l1 ++ c :: l2)).2 = l1 ++ c :: l2 := by
  have hfil : filtered_items main_version (l1 ++ c :: l2) key_fn =
      filtered_items main_version (l1 ++ l2) key_fn := by
    simp only [filtered_items, List.filterMap_append, List.filterMap_cons,
      hnone]
  have hne' : l1 ++ c :: l2 ≠ [] := by simp
  refine ⟨?_, ?_, ?_, mapStepTraced_log key_fn _⟩
  · rw [choose_version_by_key_rel_of_ne_nil _ _ _ _ hne',
      choose_version_by_key_rel_of_ne_nil _ _ _ _ hne, hfil]
  · intro hrel hres
    rw [choose_version_by_key_rel_of_ne_nil _ _ _ _ hne'] at hrel
    obtain ⟨l, hperm, -, hres'⟩ := hrel
    rw [hres'] at hres
    match l, hperm, hres with
    | [], _, hres => exact absurd hres (by simp)
    | (t, version) :: lrest, hperm, hres =>
        have ht : t = c := by simpa using hres
        have hmem : (t, version) ∈
            filtered_items main_version (l1 ++ c :: l2) key_fn :=
          hperm.mem_iff.mp (by simp)
        obtain ⟨-, hk, -⟩ := (mem_filtered_items _ _ _ _).mp hmem
        rw [ht, hnone] at hk
        exact absurd hk (by simp)
  · intro hrel
    rw [choose_version_by_key_rel_of_ne_nil _ _ _ _ hne'] at hrel
    obtain ⟨l, -, -, hres'⟩ := hrel
    exact ⟨_, hres'⟩

/-- Witness for the amended C5 at a concrete input: candidates
`[1, 0, 2]` where `0` fails derivation, reference `9`; the permitted
results coincide with those for `[1, 2]`, and the closure is invoked
exactly on `[1, 0, 2]`. -/
theorem choose_version_by_key_drops_underivable_witness :
    ((fun i : Nat => if i = 0 then none else some i) 0 = none ∧
      [1, 2] ≠ ([] : List Nat)) ∧
    ((choose_version_by_key_rel 9 [1, 0, 2]
        (fun i : Nat => if i = 0 then none else some i)
        (Except.ok (some 2)) ↔
      choose_version_by_key_rel 9 [1, 2]
        (fun i : Nat => if i = 0 then none else some i)
        (Except.ok (some 2))) ∧
    (mapStepTraced (fun i : Nat => if i = 0 then none else some i)
        [1, 0, 2]).2 = [1, 0, 2]) := by
  have h := choose_version_by_key_drops_underivable 9 0
    (fun i : Nat => if i = 0 then none else some i) [1] [2]
    (Except.ok (some 2)) (by decide) (by decide)
  exact ⟨⟨by decide, by decide⟩, h.1, h.2.2.2⟩

/-- Claim C8: `choose_version_by_key` is deterministic and referentially
transparent: two runs on the same reference version and candidate list
with extensionally equal (deterministic) derivation functions produce
identical outputs.  (Freedom from side effects is structural: the
embedding is a pure function of its arguments.) -/
theorem choose_version_by_key_deterministic {V : Type} [LinearOrder V]
    {T : Type} (main_version : V) (items : List T)
    (key_fn other_key_fn : T → Option V)
    (h : ∀ i, key_fn i = other_key_fn i) :
    choose_version_by_key main_version items key_fn =
      choose_version_by_key main_version items other_key_fn := by
  rw [funext h]

/-- Witness for C8 at a concrete input: two extensionally equal
derivation functions on `[2, 1]` with reference `3` give the same
result. -/
theorem choose_version_by_key_deterministic_witness :
    (∀ i : Nat, some i = some (0 + i)) ∧
    choose_version_by_key 3 [2, 1] some =
      choose_version_by_key 3 [2, 1] (fun i : Nat => some (0 + i)) :=
  ⟨fun i => by simp,
    choose_version_by_key_deterministic 3 [2, 1] some
      (fun i => some (0 + i)) (fun i => by simp)⟩

/-- Claim C9: the `expect("invalid versions are filtered out")` step is
never reached with an absent version — applied to the filter step's
output it always succeeds, returning exactly the filtered pairs — and
hence for every non-empty candidate list and non-panicking derivation
function `choose_version_by_key` itself never panics. -/
theorem expect_step_never_panics {V : Type} [LinearOrder V] {T : Type}
    (main_version : V) (items : List T) (key_fn : T → Option V) :
    expectStep (filterStep main_version (items.map fun i => (i, key_fn i))) =
      Except.ok (filtered_items main_version items key_fn) ∧
    (items ≠ [] → ∃ o, choose_version_by_key main_version items key_fn =
      Except.ok o) := by
  refine ⟨expectStep_filterStep main_version key_fn items, fun hne => ?_⟩
  exact ⟨_, choose_version_by_key_eq main_version items key_fn hne⟩

/-- Witness for C9 at a concrete input: candidates `[4, 9]` (one fails
derivation) with reference `5`; the expect step succeeds and the call
returns normally. -/
theorem expect_step_never_panics_witness :
    expectStep (filterStep 5 ([4, 9].map fun i =>
      (i, if i = 9 then none else some i))) =
      Except.ok (filtered_items 5 [4, 9]
        (fun i : Nat => if i = 9 then none else some i)) ∧
    ([4, 9] ≠ ([] : List Nat) ∧
      ∃ o, choose_version_by_key 5 [4, 9]
        (fun i : Nat => if i = 9 then none else some i) = Except.ok o) :=
  ⟨(expect_step_never_panics 5 [4, 9] _).1,
    by decide,
    (expect_step_never_panics 5 [4, 9]
      (fun i : Nat => if i = 9 then none else some i)).2 (by decide)⟩

/-- Counterexample to claim C6 as stated: on the tag `"1.0.0"`, which
lacks the leading `"v"` prefix, the derive closure does not yield absent
— it panics (`unwrap` of `None`, since `split("v")` has no second
segment), so the closure is not total over tag strings. -/
theorem derive_closure_panics_without_v :
    deriveTagKey semverParse "1.0.0".data = Except.error unwrapMsg ∧
    ∀ version : Option SemVersion,
      deriveTagKey semverParse "1.0.0".data ≠ Except.ok version :=
  ⟨rfl, fun _ h => Except.noConfusion h⟩

/-- Claim C6 (amended): the derive closure is not total.  On a tag
containing no `v` at all it panics (`unwrap` of `None`); on a tag
containing at least one `v` it never panics and yields the result of
parsing the segment after the first `v` (up to the next `v`, if any) —
in particular absent whenever that parse fails.  The segment follows the
first `v` anywhere in the tag, not only a leading prefix. -/
theorem derive_closure_panic_characterisation {V : Type}
    (parse : List Char → Option V) (tag : List Char) :
    ('v' ∉ tag → deriveTagKey parse tag = Except.error unwrapMsg) ∧
    ('v' ∈ tag → ∃ version_str, (rustSplit 'v' tag)[1]? = some version_str ∧
      deriveTagKey parse tag = Except.ok (parse version_str)) := by
  constructor
  · intro h
    unfold deriveTagKey
    rw [(rustSplit_getElem?_one 'v' tag).mpr h]
  · intro h
    rcases hs : (rustSplit 'v' tag)[1]? with _ | seg
    · exact absurd ((rustSplit_getElem?_one 'v' tag).mp hs) (not_not.mpr h)
    · exact ⟨seg, rfl, by unfold deriveTagKey; rw [hs]⟩

/-- Witness for the amended C6 at concrete inputs: the tag `"1.0.0"`
contains no `v` and panics; the tag `"v1.0.0"` contains a `v`, never
panics, and parses the remainder `"1.0.0"`. -/
theorem derive_closure_panic_characterisation_witness :
    ('v' ∉ "1.0.0".data ∧
      deriveTagKey semverParse "1.0.0".data = Except.error unwrapMsg) ∧
    ('v' ∈ "v1.0.0".data ∧
      ∃ version_str, (rustSplit 'v' "v1.0.0".data)[1]? = some version_str ∧
        deriveTagKey semverParse "v1.0.0".data =
          Except.ok (semverParse version_str)) :=
  ⟨⟨by decide,
      (derive_closure_panic_characterisation semverParse "1.0.0".data).1
        (by decide)⟩,
    by decide,
    (derive_closure_panic_characterisation semverParse "v1.0.0".data).2
      (by decide)⟩

/-- Claim C7: in `download_matching_release`, whenever
`choose_version_by_key` returns `None`, the function returns the
"no valid releases" error and the download step is never reached. -/
theorem download_fails_without_download_when_none
    (wasm_rgame_version : SemVersion) (releases : List Release)
    (hnone : choose_version_by_keyE wasm_rgame_version releases
      derive_release_version = Except.ok none) :
    download_matching_release wasm_rgame_version releases =
      BuildOutcome.fail "Found no valid releases for wasm-rgame version!" ∧
    ∀ r, download_matching_release wasm_rgame_version releases ≠
      BuildOutcome.download r := by
  have hne : ¬ releases.isEmpty := by
    intro h
    rw [List.isEmpty_iff] at h
    rw [h, choose_version_by_keyE] at hnone
    exact absurd hnone (by simp)
  unfold download_matching_release
  rw [if_neg hne, hnone]
  exact ⟨rfl, fun r h => BuildOutcome.noConfusion h⟩

/-- Witness for C7 at a concrete input: a single release tagged
`"v9.9.9"` exceeds the reference `0.1.0`, the selector returns `None`,
and the caller fails without downloading. -/
theorem download_fails_without_download_when_none_witness :
    choose_version_by_keyE ⟨0, 1, 0⟩
      [⟨"v9.9.9".data, "url".data⟩] derive_release_version =
      Except.ok none ∧
    download_matching_release ⟨0, 1, 0⟩ [⟨"v9.9.9".data, "url".data⟩] =
      BuildOutcome.fail "Found no valid releases for wasm-rgame version!" :=
  ⟨rfl,
    (download_fails_without_download_when_none ⟨0, 1, 0⟩
      [⟨"v9.9.9".data, "url".data⟩] rfl).1⟩

/-- Claim C10: the only in-repository caller of `choose_version_by_key`
upholds its non-empty precondition: `download_matching_release` returns
the "no releases" error on an empty fetched list before invoking the
selector, so the empty-input assertion is unreachable from that call
site — the outcome is never the assertion panic. -/
theorem caller_upholds_nonempty_precondition
    (wasm_rgame_version : SemVersion) (releases : List Release) :
    (releases = [] → download_matching_release wasm_rgame_version releases =
      BuildOutcome.fail "Found no releases for wasm-rgame-js!") ∧
    download_matching_release wasm_rgame_version releases ≠
      BuildOutcome.panicked assertEmptyMsg := by
  constructor
  · intro h
    rw [h]
    rfl
  · match releases with
    | [] => simp [download_matching_release]
    | r :: rest =>
        rcases hres : choose_version_by_keyE wasm_rgame_version (r :: rest)
            derive_release_version with e | o
        · have he : e = unwrapMsg ∨ e = expectMsg :=
            choose_version_by_keyE_error_cases wasm_rgame_version (r :: rest)
              derive_release_version (by simp)
              (fun i e hie => derive_release_version_error i e hie) e hres
          unfold download_matching_release
          rw [if_neg (by simp), hres]
          intro h
          have heq : e = assertEmptyMsg :=
            (BuildOutcome.panicked.injEq e assertEmptyMsg).mp h
          rcases he with rfl | rfl <;> revert heq <;> decide
        · unfold download_matching_release
          rw [if_neg (by simp), hres]
          rcases o with _ | chosen
          · intro h
            exact BuildOutcome.noConfusion h
          · intro h
            exact BuildOutcome.noConfusion h

/-- Witness for C10 at a concrete input: on the empty release list the
caller fails with the "no releases" error (and in particular does not
reach the selector's assertion). -/
theorem caller_upholds_nonempty_precondition_witness :
    download_matching_release ⟨1, 0, 0⟩ [] =
      BuildOutcome.fail "Found no releases for wasm-rgame-js!" ∧
    download_matching_release ⟨1, 0, 0⟩ [⟨"1.0.0".data, "url".data⟩] ≠
      BuildOutcome.panicked assertEmptyMsg :=
  ⟨(caller_upholds_nonempty_precondition ⟨1, 0, 0⟩ []).1 rfl,
    (caller_upholds_nonempty_precondition ⟨1, 0, 0⟩
      [⟨"1.0.0".data, "url".data⟩]).2⟩

/-! ### The unit tests of `choose_version.rs`, replicated against the
executable model -/

example : choose_version_by_key (⟨0, 3, 1⟩ : SemVersion)
    ["0.2.0".data, "0.3.0".data] semverParse =
    Except.ok (some "0.3.0".data) := rfl

example : choose_version_by_key (⟨0, 3, 1⟩ : SemVersion)
    ["0.2.0".data, "0.3.0".data, "0.3.1".data, "0.5.2".data] semverParse =
    Except.ok (some "0.3.1".data) := rfl

example : choose_version_by_key (⟨0, 1, 1⟩ : SemVersion)
    ["0.2.0".data, "0.3.0".data, "0.3.1".data, "0.5.2".data] semverParse =
    Except.ok none := rfl

example : download_matching_release ⟨1, 0, 0⟩
    [⟨"v0.9.9".data, "url".data⟩] =
    BuildOutcome.download ⟨"v0.9.9".data, "url".data⟩ := rfl

example : download_matching_release ⟨1, 0, 0⟩
    [⟨"1.0.0".data, "url".data⟩] = BuildOutcome.panicked unwrapMsg := rfl

end WargoBuild
